import Mathlib

/-!
Verification of the comment-reconciliation engine of the cadencefmt repository.

The core under study is the function prettyCode in src/main.go: it lexes the
original source and a canonically rendered version of it, and merges the two
token streams so that the output has the rendering's layout but the original's
comments and blank-line structure.  The external collaborators (the Cadence
lexer, parser and the prettier renderer) are outside the repository; they are
represented here by abstract function parameters, plus an executable model
lexer (modelLex) written from the specification of the Lex boundary, used to
build concrete inputs.

Strings are modelled as lists of characters; byte offsets coincide with
character indices because all concrete inputs are ASCII.
-/

/-- Strings of the embedding: lists of characters. -/
abbrev Str := List Char

/-- Token kinds consumed by the merge (spec section 3: a closed enumeration;
only the kinds the merge inspects are distinguished, all other language
tokens are represented generically). -/
inductive TokenType where
  | EOF
  | Space
  | LineComment
  | BlockCommentStart
  | BlockCommentContent
  | BlockCommentEnd
  | ParenOpen
  | ParenClose
  | BracketOpen
  | BracketClose
  | BraceOpen
  | BraceClose
  | Identifier
  | NumberLit
  | Equal
  | Other
  deriving DecidableEq

/-- A source position: byte offset, 1-based line, 0-based column
(as in the Cadence lexer's positions used by src/main.go). -/
structure Pos where
  offset : Nat
  line : Nat
  column : Nat
  deriving DecidableEq

/-- A token: kind plus start/end positions; endPos is the position of the
last character of the token (src/main.go extracts text[start : end+1]). -/
structure Token where
  type : TokenType
  startPos : Pos
  endPos : Pos
  deriving DecidableEq

/-- extractTokenText from src/main.go line 170: the text span of a token. -/
def extractTokenText (text : Str) (t : Token) : Str :=
  (text.drop t.startPos.offset).take (t.endPos.offset + 1 - t.startPos.offset)

/-- strings.Split(existingCode, "\n") from src/main.go line 175. -/
def splitLines : Str → List Str
  | [] => [[]]
  | c :: rest =>
    if c = '\n' then [] :: splitLines rest
    else
      match splitLines rest with
      | l :: ls => (c :: l) :: ls
      | [] => [[c]]

/-- Membership in the cutset of strings.Trim(s, " \t"). -/
def isSpaceTab (c : Char) : Bool := c = ' ' || c = '\t'

/-- strings.Trim(s, " \t"): drop spaces and tabs from both ends. -/
def trimSpaceTab (s : Str) : Str :=
  ((s.dropWhile isSpaceTab).reverse.dropWhile isSpaceTab).reverse

/-- strings.TrimRight(s, " "): drop trailing space characters (only ' '). -/
def trimRightSpaces (s : Str) : Str :=
  (s.reverse.dropWhile (fun c => c = ' ')).reverse

/-- strings.HasSuffix(strings.Replace(s, " ", "", -1), "\n\n") from
src/main.go line 252: remove every space, then test for a double newline
suffix. -/
def endsWithDoubleNewline (s : Str) : Bool :=
  match (s.filter (fun c => c ≠ ' ')).reverse with
  | '\n' :: '\n' :: _ => true
  | _ => false

/-- indent.String from github.com/openconfig/goyang/pkg/indent, inner loop:
prefix every line after a newline with pad, except after a final newline. -/
def indentGo (pad : Str) : Str → Str
  | [] => []
  | c :: rest =>
    if c = '\n' then '\n' :: (if rest.isEmpty then [] else pad ++ indentGo pad rest)
    else c :: indentGo pad rest

/-- indent.String(pad, s): s with each of its lines prefixed by pad;
returns s unchanged when pad or s is empty. -/
def indentString (pad s : Str) : Str :=
  if pad.isEmpty || s.isEmpty then s else pad ++ indentGo pad s

/-- The structural bypass set ignoredTokenTypes of src/main.go lines 187-192. -/
def ignoredTokenTypes : List TokenType :=
  [TokenType.ParenClose, TokenType.ParenOpen,
   TokenType.BracketOpen, TokenType.BracketClose]

/-- The trimmed text on the comment's source line before its start column
(variable oldLine of src/main.go lines 242-243). -/
def lineCommentPrefixText (lines : List Str) (t : Token) : Str :=
  trimSpaceTab ((lines.getD (t.startPos.line - 1) []).take t.startPos.column)

/-- Trailing classification of a line comment (src/main.go lines 239-245):
trailing when the trimmed text before the comment on its line is nonempty. -/
def isTrailingLineComment (lines : List Str) (t : Token) : Bool :=
  !(lineCommentPrefixText lines t).isEmpty

/-- The comment classifier: the body of the resynchronization loop of
src/main.go lines 235-293 for one old-stream token.  Returns the updated
(comment, result) buffer pair.  Non-comment tokens leave both unchanged. -/
def processComment (existingCode : Str) (lines : List Str) (spacesString : Str)
    (t : Token) (comment result : Str) : Str × Str :=
  match t.type with
  | TokenType.LineComment =>
    let oldLine := lineCommentPrefixText lines t
    let isTrailing := isTrailingLineComment lines t
    let c1 :=
      if (!isTrailing) && decide (t.startPos.line > 1)
          && (trimSpaceTab (lines.getD (t.startPos.line - 2) [])).isEmpty
          && oldLine.isEmpty && (!endsWithDoubleNewline spacesString)
      then comment ++ ['\n'] else comment
    let c2 := c1 ++ extractTokenText existingCode t
    let c3 :=
      if (!isTrailing) && decide (t.startPos.line < lines.length)
          && (trimSpaceTab (lines.getD t.startPos.line [])).isEmpty
          && oldLine.isEmpty
      then c2 ++ ['\n'] else c2
    if isTrailing then ([], result ++ [' '] ++ c3)
    else (c3 ++ ['\n'], result)
  | TokenType.BlockCommentContent =>
    let cs := extractTokenText existingCode t
    let c1 := comment ++ ['/', '*'] ++ cs ++ ['*', '/']
    let c2 := if t.startPos.line < t.endPos.line then c1 ++ ['\n', '\n'] else c1
    (c2, result)
  | _ => (comment, result)

/-- The outcome of one run of the old-stream resynchronization loop. -/
structure ResyncOut where
  rest : List Token
  tokType : TokenType
  comment : Str
  result : Str
  deriving DecidableEq

/-- The old-stream resynchronization loop of src/main.go lines 231-298:
pull old tokens, classifying comments into the buffers, until an old token's
kind matches the current new token's kind or the old stream is exhausted.
An exhausted list behaves like the lexer's repeated end-of-input token. -/
def resync (existingCode : Str) (lines : List Str) (newType : TokenType)
    (spacesString : Str) : List Token → Str → Str → ResyncOut
  | [], comment, result => ⟨[], TokenType.EOF, comment, result⟩
  | t :: rest, comment, result =>
    let pr := processComment existingCode lines spacesString t comment result
    if t.type = newType ∨ t.type = TokenType.EOF then ⟨rest, t.type, pr.1, pr.2⟩
    else resync existingCode lines newType spacesString rest pr.1 pr.2

/-- The merge loop of src/main.go lines 198-326.  State: remaining new
tokens, remaining old tokens, the kind of the last old token pulled, and the
three accumulator buffers result / spaces / comment.  The empty new-token
list behaves like the lexer's repeated end-of-input token. -/
def mergeLoop (existingCode : Str) (lines : List Str) (prettyStr : Str) :
    List Token → List Token → TokenType → Str → Str → Str → Str
  | [], oldRest, oldType, result, spaces, comment =>
    let ro :=
      if oldType = TokenType.EOF then ResyncOut.mk oldRest oldType comment result
      else resync existingCode lines TokenType.EOF spaces oldRest comment result
    ro.result ++ ro.comment
  | newTok :: rest, oldRest, oldType, result, spaces, comment =>
    if newTok.type = TokenType.Space then
      mergeLoop existingCode lines prettyStr rest oldRest oldType result
        (spaces ++ extractTokenText prettyStr newTok) comment
    else if newTok.type = TokenType.BraceOpen then
      match rest with
      | next :: rest2 =>
        if next.type = TokenType.BraceClose then
          mergeLoop existingCode lines prettyStr rest2 oldRest oldType
            (result ++ ['\x7b', '\x7d']) spaces comment
        else
          mergeLoop existingCode lines prettyStr (next :: rest2) oldRest oldType
            (result ++ ['\x7b']) spaces comment
      | [] =>
        let r3 := result ++ ['\x7b']
        let ro :=
          if oldType = TokenType.EOF then ResyncOut.mk oldRest oldType comment r3
          else resync existingCode lines TokenType.EOF spaces oldRest comment r3
        ro.result ++ ro.comment
    else if ignoredTokenTypes.contains newTok.type then
      mergeLoop existingCode lines prettyStr rest oldRest oldType
        (result ++ spaces ++ extractTokenText prettyStr newTok) [] comment
    else
      let ro :=
        if oldType = TokenType.EOF then ResyncOut.mk oldRest oldType comment result
        else resync existingCode lines newTok.type spaces oldRest comment result
      if ro.tokType = TokenType.EOF ∧ newTok.type = TokenType.EOF then
        ro.result ++ ro.comment
      else
        let existingIndent := (spaces.reverse.takeWhile (fun c => c ≠ '\n')).length
        let r1 := ro.result ++ trimRightSpaces spaces
        let r2 :=
          if ro.comment.length > 0 then
            let padding := List.replicate newTok.startPos.column ' '
            r1 ++ indentString padding ro.comment ++ padding
          else r1 ++ List.replicate existingIndent ' '
        mergeLoop existingCode lines prettyStr rest ro.rest ro.tokType
          (r2 ++ extractTokenText prettyStr newTok) [] []

/-- The reconciliation core: src/main.go lines 174-328 after the rendered
text has been produced, operating on the two token streams.  Initial
sentinel old-token kind is Space (line 184); all buffers start empty. -/
def reconcile (existingCode : Str) (oldTokens : List Token)
    (prettyStr : Str) (newTokens : List Token) : Str :=
  mergeLoop existingCode (splitLines existingCode) prettyStr
    newTokens oldTokens TokenType.Space [] [] []

/-- The diagnostic marker tested by src/main.go line 179. -/
def parsingFailedMarker : Str := "Parsing failed ".toList

/-- prettyCode of src/main.go lines 174-182 and 328: render, pass a parse
diagnostic straight through, otherwise lex both texts and reconcile.  The
external renderer (pretty, src/main.go lines 39-48, built on the external
parser and prettier) and the external lexer are parameters. -/
def prettyCode (pretty : Str → Nat → Str) (lex : Str → List Token)
    (existingCode : Str) (maxLineLength : Nat) : Str :=
  let p := pretty existingCode maxLineLength
  if parsingFailedMarker.isPrefixOf p then p
  else reconcile existingCode (lex existingCode) p (lex p)

/-- Position advance over one character (line/column bookkeeping of the
external lexer boundary). -/
def advancePos (p : Pos) (c : Char) : Pos :=
  if c = '\n' then ⟨p.offset + 1, p.line + 1, 0⟩
  else ⟨p.offset + 1, p.line, p.column + 1⟩

/-- Position advance over a character sequence. -/
def advanceStr (p : Pos) : Str → Pos
  | [] => p
  | c :: cs => advanceStr (advancePos p c) cs

/-- End position of a token whose text starts at p: the position of its last
character (for an empty span, the offset just before p). -/
def endPosOf (p : Pos) (text : Str) : Pos :=
  match text with
  | [] => ⟨p.offset - 1, p.line, p.column⟩
  | _ :: _ => advanceStr p text.dropLast

/-- Split a block comment body: the content before the closing delimiter and
the remainder of the input after it. -/
def splitBlockComment : Str → Str × Str
  | [] => ([], [])
  | '*' :: '/' :: rest => ([], rest)
  | c :: rest =>
    let pr := splitBlockComment rest
    (c :: pr.1, pr.2)

/-- Whitespace characters recognised by the external lexer boundary. -/
def isWSChar (c : Char) : Bool := c = ' ' || c = '\t' || c = '\n' || c = '\r'

/-- First character of an identifier. -/
def isIdentStart (c : Char) : Bool := c.isAlpha || c = '_'

/-- Subsequent character of an identifier. -/
def isIdentRest (c : Char) : Bool := c.isAlphanum || c = '_'

/-- Modelled from the spec: the external Lex collaborator (spec sections 4.1
and 6), absent from the repository.  It tokenizes any text into typed,
positioned tokens — whitespace runs, line comments (delimiters included, up
to the end of the line), block comments as the three tokens
start/content/end, grouping punctuation, identifiers, number literals and
generic single-character tokens — and terminates with an end-of-input
token.  Fuel-structured on the input length; each step consumes at least one
character, so the fuel never runs out on the inputs used here. -/
def modelLexAux : Nat → Str → Pos → List Token
  | 0, _, p => [Token.mk TokenType.EOF p p]
  | _ + 1, [], p => [Token.mk TokenType.EOF p p]
  | fuel + 1, '/' :: '/' :: rest, p =>
    let body := rest.takeWhile (fun c => c ≠ '\n')
    let text := '/' :: '/' :: body
    Token.mk TokenType.LineComment p (endPosOf p text) ::
      modelLexAux fuel (rest.dropWhile (fun c => c ≠ '\n')) (advanceStr p text)
  | fuel + 1, '/' :: '*' :: rest, p =>
    let pr := splitBlockComment rest
    let pContent := advanceStr p ['/', '*']
    let pEnd := advanceStr pContent pr.1
    Token.mk TokenType.BlockCommentStart p (advancePos p '/') ::
      Token.mk TokenType.BlockCommentContent pContent (endPosOf pContent pr.1) ::
        Token.mk TokenType.BlockCommentEnd pEnd (advancePos pEnd '*') ::
          modelLexAux fuel pr.2 (advanceStr pEnd ['*', '/'])
  | fuel + 1, c :: rest, p =>
    if isWSChar c then
      let text := c :: rest.takeWhile isWSChar
      Token.mk TokenType.Space p (endPosOf p text) ::
        modelLexAux fuel (rest.dropWhile isWSChar) (advanceStr p text)
    else if c = '(' then
      Token.mk TokenType.ParenOpen p p :: modelLexAux fuel rest (advancePos p c)
    else if c = ')' then
      Token.mk TokenType.ParenClose p p :: modelLexAux fuel rest (advancePos p c)
    else if c = '[' then
      Token.mk TokenType.BracketOpen p p :: modelLexAux fuel rest (advancePos p c)
    else if c = ']' then
      Token.mk TokenType.BracketClose p p :: modelLexAux fuel rest (advancePos p c)
    else if c = '\x7b' then
      Token.mk TokenType.BraceOpen p p :: modelLexAux fuel rest (advancePos p c)
    else if c = '\x7d' then
      Token.mk TokenType.BraceClose p p :: modelLexAux fuel rest (advancePos p c)
    else if c = '=' then
      Token.mk TokenType.Equal p p :: modelLexAux fuel rest (advancePos p c)
    else if isIdentStart c then
      let text := c :: rest.takeWhile isIdentRest
      Token.mk TokenType.Identifier p (endPosOf p text) ::
        modelLexAux fuel (rest.dropWhile isIdentRest) (advanceStr p text)
    else if c.isDigit then
      let text := c :: rest.takeWhile Char.isDigit
      Token.mk TokenType.NumberLit p (endPosOf p text) ::
        modelLexAux fuel (rest.dropWhile Char.isDigit) (advanceStr p text)
    else
      Token.mk TokenType.Other p p :: modelLexAux fuel rest (advancePos p c)

/-- Modelled from the spec: Lex(text) -> TokenStream (spec section 6), as a
total executable function with initial position offset 0, line 1, column 0. -/
def modelLex (s : Str) : List Token := modelLexAux s.length s ⟨0, 1, 0⟩

/-- The comment kinds of the token enumeration. -/
def isCommentKind (tt : TokenType) : Bool :=
  tt = TokenType.LineComment || tt = TokenType.BlockCommentStart
    || tt = TokenType.BlockCommentContent || tt = TokenType.BlockCommentEnd

/-- A token stream with no comment tokens anywhere. -/
def noComments (toks : List Token) : Bool := toks.all (fun t => !isCommentKind t.type)

/-- The text a comment token contributes to the output: a line comment's own
span; a block comment content's span wrapped in its delimiters (src/main.go
lines 259 and 282-285). -/
def reconText (existingCode : Str) (t : Token) : Str :=
  if t.type = TokenType.BlockCommentContent
  then ['/', '*'] ++ extractTokenText existingCode t ++ ['*', '/']
  else extractTokenText existingCode t

/-- Executable substring test: does needle occur contiguously in the string? -/
def containsSub (needle : Str) : Str → Bool
  | [] => needle.isPrefixOf []
  | c :: rest => needle.isPrefixOf (c :: rest) || containsSub needle rest

/-- Executable order-preserving subsequence test on token kinds. -/
def isSubseqKinds : List TokenType → List TokenType → Bool
  | [], _ => true
  | _ :: _, [] => false
  | a :: as, b :: bs => if a = b then isSubseqKinds as bs else isSubseqKinds (a :: as) bs

/-- The kinds the merge synchronises on (claim C1's compatibility notion):
kinds that are not whitespace, not comments and not in the structural bypass
set. -/
def mergeRelevantKinds (toks : List Token) : List TokenType :=
  (toks.filter (fun t =>
    !(t.type = TokenType.Space || isCommentKind t.type
        || ignoredTokenTypes.contains t.type))).map Token.type

/-- Kind-subsequence compatibility of a rendered stream with an original
stream, as assumed by the comment-conservation property. -/
def kindCompatible (newToks oldToks : List Token) : Bool :=
  isSubseqKinds (mergeRelevantKinds newToks) (oldToks.map Token.type)

/-- A string consisting of spaces and line breaks only. -/
def spacesNL (s : Str) : Bool := s.all (fun c => c = ' ' || c = '\n')

/-- Per-token side conditions of the passthrough property, relative to the
rendered text: whitespace tokens carry only spaces and line breaks, and
brace tokens carry exactly their delimiter. -/
def goodNewToken (p : Str) (t : Token) : Bool :=
  match t.type with
  | TokenType.Space => spacesNL (extractTokenText p t)
  | TokenType.BraceOpen => decide (extractTokenText p t = ['\x7b'])
  | TokenType.BraceClose => decide (extractTokenText p t = ['\x7d'])
  | _ => true

/-- Structural side conditions of the passthrough property: no whitespace
token immediately before an open brace or the end-of-input token, and no
whitespace token last. -/
def wellSpaced : List Token → Bool
  | [] => true
  | [t] => decide (t.type ≠ TokenType.Space)
  | t :: u :: rest =>
    (!(decide (t.type = TokenType.Space)
        && (decide (u.type = TokenType.BraceOpen) || decide (u.type = TokenType.EOF))))
      && wellSpaced (u :: rest)

/-- Concatenation of the token texts of a stream up to its end-of-input
token: the text the stream tiles. -/
def tailText (p : Str) : List Token → Str
  | [] => []
  | t :: rest =>
    if t.type = TokenType.EOF then []
    else extractTokenText p t ++ tailText p rest

/-- The conservation invariant: the target string is already in the result,
still pending in the comment buffer, or still ahead in the old stream as an
unprocessed comment token. -/
def conservesInv (e : Str) (c : Str) (oldRest : List Token) (oldType : TokenType)
    (result comment : Str) : Prop :=
  c <:+: result ∨ c <:+: comment ∨
    (oldType ≠ TokenType.EOF ∧ ∃ t ∈ oldRest.takeWhile (fun tk => tk.type ≠ TokenType.EOF),
      (t.type = TokenType.LineComment ∨ t.type = TokenType.BlockCommentContent) ∧
        c = reconText e t)

/-- Fuel-bounded mirror of the resynchronization loop resync, making its
termination observable: none means the fuel ran out before the loop stopped
at a kind match or old-stream exhaustion. -/
def resyncFuel (existingCode : Str) (lines : List Str) (newType : TokenType)
    (spacesString : Str) : Nat → List Token → Str → Str → Option ResyncOut
  | 0, _, _, _ => none
  | _ + 1, [], comment, result => some ⟨[], TokenType.EOF, comment, result⟩
  | fuel + 1, t :: rest, comment, result =>
    let pr := processComment existingCode lines spacesString t comment result
    if t.type = newType ∨ t.type = TokenType.EOF then some ⟨rest, t.type, pr.1, pr.2⟩
    else resyncFuel existingCode lines newType spacesString fuel rest pr.1 pr.2

/-- Fuel-bounded mirror of the merge loop, making its termination
observable: each outer iteration consumes one unit of fuel, and the inner
resynchronization loop is bounded by old-stream exhaustion; none means the
fuel ran out with the loop still running. -/
def mergeLoopFuel (existingCode : Str) (lines : List Str) (prettyStr : Str) :
    Nat → List Token → List Token → TokenType → Str → Str → Str → Option Str
  | 0, _, _, _, _, _, _ => none
  | _ + 1, [], oldRest, oldType, result, spaces, comment =>
    let ro :=
      if oldType = TokenType.EOF then some (ResyncOut.mk oldRest oldType comment result)
      else resyncFuel existingCode lines TokenType.EOF spaces (oldRest.length + 1)
        oldRest comment result
    match ro with
    | none => none
    | some r => some (r.result ++ r.comment)
  | fuel + 1, newTok :: rest, oldRest, oldType, result, spaces, comment =>
    if newTok.type = TokenType.Space then
      mergeLoopFuel existingCode lines prettyStr fuel rest oldRest oldType result
        (spaces ++ extractTokenText prettyStr newTok) comment
    else if newTok.type = TokenType.BraceOpen then
      match rest with
      | next :: rest2 =>
        if next.type = TokenType.BraceClose then
          mergeLoopFuel existingCode lines prettyStr fuel rest2 oldRest oldType
            (result ++ ['\x7b', '\x7d']) spaces comment
        else
          mergeLoopFuel existingCode lines prettyStr fuel (next :: rest2) oldRest oldType
            (result ++ ['\x7b']) spaces comment
      | [] =>
        let r3 := result ++ ['\x7b']
        let ro :=
          if oldType = TokenType.EOF then some (ResyncOut.mk oldRest oldType comment r3)
          else resyncFuel existingCode lines TokenType.EOF spaces (oldRest.length + 1)
            oldRest comment r3
        match ro with
        | none => none
        | some r => some (r.result ++ r.comment)
    else if ignoredTokenTypes.contains newTok.type then
      mergeLoopFuel existingCode lines prettyStr fuel rest oldRest oldType
        (result ++ spaces ++ extractTokenText prettyStr newTok) [] comment
    else
      let ro :=
        if oldType = TokenType.EOF then some (ResyncOut.mk oldRest oldType comment result)
        else resyncFuel existingCode lines newTok.type spaces (oldRest.length + 1)
          oldRest comment result
      match ro with
      | none => none
      | some r =>
        if r.tokType = TokenType.EOF ∧ newTok.type = TokenType.EOF then
          some (r.result ++ r.comment)
        else
          let existingIndent := (spaces.reverse.takeWhile (fun c => c ≠ '\n')).length
          let r1 := r.result ++ trimRightSpaces spaces
          let r2 :=
            if r.comment.length > 0 then
              let padding := List.replicate newTok.startPos.column ' '
              r1 ++ indentString padding r.comment ++ padding
            else r1 ++ List.replicate existingIndent ' '
          mergeLoopFuel existingCode lines prettyStr fuel rest r.rest r.tokType
            (r2 ++ extractTokenText prettyStr newTok) [] []

theorem infixAppendRight {s t u : Str} (h : s <:+: t) : s <:+: t ++ u := by
  obtain ⟨a, b, hab⟩ := h
  exact ⟨a, b ++ u, by rw [← hab]; simp⟩

theorem infixAppendLeft {s t u : Str} (h : s <:+: u) : s <:+: t ++ u := by
  obtain ⟨a, b, hab⟩ := h
  exact ⟨t ++ a, b, by rw [← hab]; simp⟩

theorem containsSub_iff {needle hay : Str} : containsSub needle hay = true ↔ needle <:+: hay := by
  induction hay with
  | nil => simp [containsSub]
  | cons c rest ih => simp [containsSub, List.infix_cons_iff, ih]

theorem prefix_indentGo {c : Str} (pad : Str) (hc : '\n' ∉ c) :
    ∀ {t : Str}, c <+: t → c <+: indentGo pad t := by
  induction c with
  | nil => intro t _; exact List.nil_prefix
  | cons x c2 ih =>
    intro t hpre
    match t with
    | [] => simp at hpre
    | y :: t2 =>
      obtain ⟨hxy, hp2⟩ := List.cons_prefix_cons.mp hpre
      have hx : y ≠ '\n' := by subst hxy; simpa using fun h => hc (by simp [h])
      have hc2 : '\n' ∉ c2 := fun h => hc (by simp [h])
      rw [indentGo, if_neg (by simpa using hx)]
      exact List.cons_prefix_cons.mpr ⟨hxy, ih hc2 hp2⟩

theorem infix_indentGo {c : Str} (pad : Str) (hc : '\n' ∉ c) :
    ∀ {t : Str}, c <:+: t → c <:+: indentGo pad t := by
  intro t
  induction t with
  | nil => intro h; simpa [indentGo] using h
  | cons x t2 ih =>
    intro h
    rcases List.infix_cons_iff.mp h with hpre | hinf
    · exact (prefix_indentGo pad hc hpre).isInfix
    · have h2 := ih hinf
      by_cases hx : x = '\n'
      · subst hx
        by_cases ht : t2.isEmpty
        · have ht2 : t2 = [] := by simpa using ht
          subst ht2
          have : c = [] := by simpa [indentGo] using h2
          subst this
          exact List.nil_infix
        · rw [indentGo, if_pos rfl, if_neg ht]
          exact List.infix_cons (infixAppendLeft h2)
      · rw [indentGo, if_neg (by simpa using hx)]
        exact List.infix_cons h2

theorem infix_indentString {c pad s : Str} (hc : '\n' ∉ c) (h : c <:+: s) :
    c <:+: indentString pad s := by
  unfold indentString
  split
  · exact h
  · exact infixAppendLeft (infix_indentGo pad hc h)

theorem processComment_trailing {e : Str} {l : List Str} {sp : Str} {t : Token} {cm r : Str}
    (ht : t.type = TokenType.LineComment) (htr : isTrailingLineComment l t = true) :
    processComment e l sp t cm r = ([], r ++ [' '] ++ cm ++ extractTokenText e t) := by
  have hemp : (lineCommentPrefixText l t).isEmpty = false := by
    simpa [isTrailingLineComment] using htr
  obtain ⟨tt, ps, pe⟩ := t
  simp only [Token.type] at ht
  subst ht
  simp [processComment, htr, hemp]

theorem processComment_leading {e : Str} {l : List Str} {sp : Str} {t : Token} {cm r : Str}
    (ht : t.type = TokenType.LineComment) (htr : isTrailingLineComment l t = false) :
    processComment e l sp t cm r =
      (cm ++
        (if decide (t.startPos.line > 1)
            && (trimSpaceTab (l.getD (t.startPos.line - 2) [])).isEmpty
            && !endsWithDoubleNewline sp
          then ['\n'] else []) ++
        extractTokenText e t ++
        (if decide (t.startPos.line < l.length)
            && (trimSpaceTab (l.getD t.startPos.line [])).isEmpty
          then ['\n'] else []) ++ ['\n'], r) := by
  have hemp : (lineCommentPrefixText l t).isEmpty = true := by
    simpa [isTrailingLineComment] using htr
  obtain ⟨tt, ps, pe⟩ := t
  simp only [Token.type] at ht
  subst ht
  simp only [processComment, isTrailingLineComment, hemp, Bool.not_true,
    Bool.false_eq_true, if_false, Bool.not_false, Bool.true_and, Bool.and_true]
  split <;> split <;> simp_all [isTrailingLineComment]

theorem processComment_blockContent {e : Str} {l : List Str} {sp : Str} {t : Token} {cm r : Str}
    (ht : t.type = TokenType.BlockCommentContent) :
    processComment e l sp t cm r =
      (cm ++ ['/', '*'] ++ extractTokenText e t ++ ['*', '/'] ++
        (if t.startPos.line < t.endPos.line then ['\n', '\n'] else []), r) := by
  obtain ⟨tt, ps, pe⟩ := t
  simp only [Token.type] at ht
  subst ht
  simp only [processComment]
  split <;> simp

theorem processComment_other {e : Str} {l : List Str} {sp : Str} {t : Token} {cm r : Str}
    (h1 : t.type ≠ TokenType.LineComment) (h2 : t.type ≠ TokenType.BlockCommentContent) :
    processComment e l sp t cm r = (cm, r) := by
  unfold processComment
  obtain ⟨tt, ps, pe⟩ := t
  cases tt <;> simp_all

theorem processComment_result_pfx (e : Str) (l : List Str) (sp : Str) (t : Token) (cm r : Str) :
    ∃ ext, (processComment e l sp t cm r).2 = r ++ ext := by
  by_cases h1 : t.type = TokenType.LineComment
  · by_cases h2 : isTrailingLineComment l t
    · exact ⟨[' '] ++ cm ++ extractTokenText e t,
        by rw [processComment_trailing h1 h2]; simp⟩
    · exact ⟨[], by rw [processComment_leading h1 (by simpa using h2)]; simp⟩
  · by_cases h3 : t.type = TokenType.BlockCommentContent
    · exact ⟨[], by rw [processComment_blockContent h3]; simp⟩
    · exact ⟨[], by rw [processComment_other h1 h3]; simp⟩

theorem processComment_keeps {c : Str} (e : Str) (l : List Str) (sp : Str) (t : Token)
    (cm r : Str) (h : c <:+: cm) :
    c <:+: (processComment e l sp t cm r).1 ∨ c <:+: (processComment e l sp t cm r).2 := by
  by_cases h1 : t.type = TokenType.LineComment
  · by_cases h2 : isTrailingLineComment l t
    · rw [processComment_trailing h1 h2]
      exact Or.inr (infixAppendRight (infixAppendLeft h))
    · rw [processComment_leading h1 (by simpa using h2)]
      exact Or.inl (infixAppendRight (infixAppendRight (infixAppendRight (infixAppendRight h))))
  · by_cases h3 : t.type = TokenType.BlockCommentContent
    · rw [processComment_blockContent h3]
      exact Or.inl (infixAppendRight (infixAppendRight (infixAppendRight (infixAppendRight h))))
    · rw [processComment_other h1 h3]
      exact Or.inl h

theorem processComment_adds (e : Str) (l : List Str) (sp : Str) (t : Token) (cm r : Str)
    (ht : t.type = TokenType.LineComment ∨ t.type = TokenType.BlockCommentContent) :
    reconText e t <:+: (processComment e l sp t cm r).1 ∨
      reconText e t <:+: (processComment e l sp t cm r).2 := by
  rcases ht with h1 | h1
  · have hr : reconText e t = extractTokenText e t := by
      rw [reconText, if_neg (by rw [h1]; intro h; cases h)]
    by_cases h2 : isTrailingLineComment l t
    · rw [processComment_trailing h1 h2, hr]
      exact Or.inr (infixAppendLeft List.infix_rfl)
    · rw [processComment_leading h1 (by simpa using h2), hr]
      exact Or.inl (infixAppendRight (infixAppendRight (infixAppendLeft List.infix_rfl)))
  · rw [processComment_blockContent h1, reconText, if_pos h1]
    refine Or.inl ⟨cm, if t.startPos.line < t.endPos.line then ['\n', '\n'] else [], ?_⟩
    simp

theorem resync_result_pfx (e : Str) (l : List Str) (nt : TokenType) (sp : Str) :
    ∀ (old : List Token) (cm r : Str), ∃ ext, (resync e l nt sp old cm r).result = r ++ ext := by
  intro old
  induction old with
  | nil => exact fun cm r => ⟨[], by simp [resync]⟩
  | cons t rest ih =>
    intro cm r
    obtain ⟨ext1, he1⟩ := processComment_result_pfx e l sp t cm r
    rw [resync]
    split
    · exact ⟨ext1, by simpa using he1⟩
    · obtain ⟨ext2, he2⟩ :=
        ih (processComment e l sp t cm r).1 (processComment e l sp t cm r).2
      exact ⟨ext1 ++ ext2, by rw [he2, he1, List.append_assoc]⟩

theorem resync_keeps {c : Str} (e : Str) (l : List Str) (nt : TokenType) (sp : Str) :
    ∀ (old : List Token) (cm r : Str), c <:+: cm →
      c <:+: (resync e l nt sp old cm r).comment ∨ c <:+: (resync e l nt sp old cm r).result := by
  intro old
  induction old with
  | nil => intro cm r h; exact Or.inl (by simpa [resync] using h)
  | cons t rest ih =>
    intro cm r h
    rw [resync]
    rcases processComment_keeps e l sp t cm r h with h2 | h2
    · split
      · exact Or.inl (by simpa using h2)
      · exact ih _ _ h2
    · split
      · exact Or.inr (by simpa using h2)
      · obtain ⟨ext, he⟩ :=
          resync_result_pfx e l nt sp rest (processComment e l sp t cm r).1
            (processComment e l sp t cm r).2
        exact Or.inr (by rw [he]; exact infixAppendRight h2)

theorem resync_eof_tokType (e : Str) (l : List Str) (sp : Str) :
    ∀ (old : List Token) (cm r : Str),
      (resync e l TokenType.EOF sp old cm r).tokType = TokenType.EOF := by
  intro old
  induction old with
  | nil => intro cm r; simp [resync]
  | cons t rest ih =>
    intro cm r
    rw [resync]
    split
    · next hbr => simpa using (by tauto : t.type = TokenType.EOF)
    · exact ih _ _

theorem resync_pure (e : Str) (l : List Str) (nt : TokenType) (sp : Str) :
    ∀ (old : List Token) (cm r : Str), noComments old = true →
      (resync e l nt sp old cm r).comment = cm ∧ (resync e l nt sp old cm r).result = r ∧
        noComments (resync e l nt sp old cm r).rest = true := by
  intro old
  induction old with
  | nil => intro cm r _; simp [resync, noComments]
  | cons t rest ih =>
    intro cm r hnc
    have hnct : isCommentKind t.type = false := by
      have := List.all_eq_true.mp hnc t (by simp)
      simpa using this
    have hrest : noComments rest = true := by
      apply List.all_eq_true.mpr
      intro u hu
      exact List.all_eq_true.mp hnc u (by simp [hu])
    have h1 : t.type ≠ TokenType.LineComment := by
      intro h; rw [h] at hnct; simp [isCommentKind] at hnct
    have h2 : t.type ≠ TokenType.BlockCommentContent := by
      intro h; rw [h] at hnct; simp [isCommentKind] at hnct
    rw [resync, processComment_other h1 h2]
    split
    · exact ⟨rfl, rfl, hrest⟩
    · exact ih _ _ hrest

theorem resync_adds (e : Str) (l : List Str) (nt : TokenType) (sp : Str) :
    ∀ (old : List Token) (cm r : Str) (t : Token),
      t ∈ old.takeWhile (fun tk => tk.type ≠ TokenType.EOF) →
      (t.type = TokenType.LineComment ∨ t.type = TokenType.BlockCommentContent) →
      (reconText e t <:+: (resync e l nt sp old cm r).comment ∨
        reconText e t <:+: (resync e l nt sp old cm r).result) ∨
      (t ∈ (resync e l nt sp old cm r).rest.takeWhile (fun tk => tk.type ≠ TokenType.EOF) ∧
        (resync e l nt sp old cm r).tokType ≠ TokenType.EOF) := by
  intro old
  induction old with
  | nil => intro cm r t hmem _; simp at hmem
  | cons u rest ih =>
    intro cm r t hmem hty
    by_cases hu : u.type = TokenType.EOF
    · rw [List.takeWhile_cons, if_neg (by simpa using hu)] at hmem
      simp at hmem
    · rw [List.takeWhile_cons, if_pos (by simpa using hu)] at hmem
      rw [resync]
      rcases List.mem_cons.mp hmem with rfl | hmem2
      · rcases processComment_adds e l sp t cm r hty with h2 | h2
        · split
          · exact Or.inl (Or.inl (by simpa using h2))
          · exact Or.inl (resync_keeps e l nt sp rest _ _ h2)
        · split
          · exact Or.inl (Or.inr (by simpa using h2))
          · obtain ⟨ext, he⟩ :=
              resync_result_pfx e l nt sp rest (processComment e l sp t cm r).1
                (processComment e l sp t cm r).2
            exact Or.inl (Or.inr (by rw [he]; exact infixAppendRight h2))
      · split
        · exact Or.inr ⟨by simpa using hmem2, by simpa using hu⟩
        · exact ih _ _ t hmem2 hty

theorem emit_keeps {c : Str} (hc : '\n' ∉ c) {ro : ResyncOut} {trimmed pad reps text : Str}
    (h : c <:+: ro.result ∨ c <:+: ro.comment) :
    c <:+: (if ro.comment.length > 0
        then ro.result ++ trimmed ++ indentString pad ro.comment ++ pad
        else ro.result ++ trimmed ++ reps) ++ text := by
  split
  · rcases h with h | h
    · exact infixAppendRight (infixAppendRight (infixAppendRight (infixAppendRight h)))
    · exact infixAppendRight (infixAppendRight (infixAppendLeft (infix_indentString hc h)))
  · next hlen =>
    rcases h with h | h
    · exact infixAppendRight (infixAppendRight (infixAppendRight h))
    · have h0 : ro.comment = [] := by
        cases hn : ro.comment with
        | nil => rfl
        | cons a as => rw [hn] at hlen; simp at hlen
      rw [h0] at h
      have hcn : c = [] := List.infix_nil.mp h
      subst hcn
      exact List.nil_infix

theorem mergeLoop_conserves (e : Str) (l : List Str) (p : Str) {c : Str} (hc : '\n' ∉ c) :
    ∀ (newRest oldRest : List Token) (oldType : TokenType) (result spaces comment : Str),
      conservesInv e c oldRest oldType result comment →
      c <:+: mergeLoop e l p newRest oldRest oldType result spaces comment := by
  have flush : ∀ (oldRest : List Token) (oldType : TokenType) (nt : TokenType)
      (result spaces comment : Str),
      conservesInv e c oldRest oldType result comment →
      (nt = TokenType.EOF) →
      c <:+: (if oldType = TokenType.EOF
          then ResyncOut.mk oldRest oldType comment result
          else resync e l nt spaces oldRest comment result).result ++
        (if oldType = TokenType.EOF
          then ResyncOut.mk oldRest oldType comment result
          else resync e l nt spaces oldRest comment result).comment := by
    intro oldRest oldType nt result spaces comment hinv hnt
    subst hnt
    by_cases hE : oldType = TokenType.EOF
    · rw [if_pos hE]
      rcases hinv with h | h | ⟨hne, _⟩
      · exact infixAppendRight h
      · exact infixAppendLeft h
      · exact absurd hE hne
    · rw [if_neg hE]
      rcases hinv with h | h | ⟨_, t, hmem, hty, rfl⟩
      · obtain ⟨ext, he⟩ := resync_result_pfx e l TokenType.EOF spaces oldRest comment result
        exact infixAppendRight (he ▸ infixAppendRight h)
      · rcases resync_keeps e l TokenType.EOF spaces oldRest comment result h with h2 | h2
        · exact infixAppendLeft h2
        · exact infixAppendRight h2
      · rcases resync_adds e l TokenType.EOF spaces oldRest comment result t hmem hty with
          (h2 | h2) | ⟨_, htok⟩
        · exact infixAppendLeft h2
        · exact infixAppendRight h2
        · exact absurd (resync_eof_tokType e l spaces oldRest comment result) htok
  intro newRest oldRest oldType result spaces comment
  induction newRest, oldRest, oldType, result, spaces, comment using mergeLoop.induct e l p with
  | case1 oldRest oldType result spaces comment =>
    intro hinv
    rw [mergeLoop]
    exact flush oldRest oldType TokenType.EOF result spaces comment hinv rfl
  | case2 newTok rest oldRest oldType result spaces comment hsp ih =>
    intro hinv
    rw [mergeLoop.eq_def]
    dsimp only
    rw [if_pos hsp]
    exact ih hinv
  | case3 newTok oldRest oldType result spaces comment hsp hbo next rest2 hbc ih =>
    intro hinv
    rw [mergeLoop.eq_def]
    dsimp only
    rw [if_neg hsp, if_pos hbo, if_pos hbc]
    refine ih ?_
    rcases hinv with h | h | h3
    · exact Or.inl (infixAppendRight h)
    · exact Or.inr (Or.inl h)
    · exact Or.inr (Or.inr h3)
  | case4 newTok oldRest oldType result spaces comment hsp hbo next rest2 hbc ih =>
    intro hinv
    rw [mergeLoop.eq_def]
    dsimp only
    rw [if_neg hsp, if_pos hbo, if_neg hbc]
    refine ih ?_
    rcases hinv with h | h | h3
    · exact Or.inl (infixAppendRight h)
    · exact Or.inr (Or.inl h)
    · exact Or.inr (Or.inr h3)
  | case5 newTok oldRest oldType result spaces comment hsp hbo =>
    intro hinv
    rw [mergeLoop.eq_def]
    dsimp only
    rw [if_neg hsp, if_pos hbo]
    refine flush oldRest oldType TokenType.EOF (result ++ ['\x7b']) spaces comment ?_ rfl
    rcases hinv with h | h | h3
    · exact Or.inl (infixAppendRight h)
    · exact Or.inr (Or.inl h)
    · exact Or.inr (Or.inr h3)
  | case6 newTok rest oldRest oldType result spaces comment hsp hbo hig ih =>
    intro hinv
    rw [mergeLoop.eq_def]
    dsimp only
    rw [if_neg hsp, if_neg hbo, if_pos hig]
    refine ih ?_
    rcases hinv with h | h | h3
    · exact Or.inl (infixAppendRight (infixAppendRight h))
    · exact Or.inr (Or.inl h)
    · exact Or.inr (Or.inr h3)
  | case7 newTok rest oldRest oldType result spaces comment hsp hbo hig ro hcond =>
    intro hinv
    have hcond2 : (if oldType = TokenType.EOF
        then ResyncOut.mk oldRest oldType comment result
        else resync e l newTok.type spaces oldRest comment result).tokType = TokenType.EOF ∧
        newTok.type = TokenType.EOF := hcond
    rw [mergeLoop.eq_def]
    dsimp only
    rw [if_neg hsp, if_neg hbo, if_neg hig]
    rw [if_pos hcond2]
    exact flush oldRest oldType newTok.type result spaces comment hinv hcond2.2
  | case8 newTok rest oldRest oldType result spaces comment hsp hbo hig ro hcond
      existingIndent r1 r2 ih =>
    intro hinv
    have hcond2 : ¬((if oldType = TokenType.EOF
        then ResyncOut.mk oldRest oldType comment result
        else resync e l newTok.type spaces oldRest comment result).tokType = TokenType.EOF ∧
        newTok.type = TokenType.EOF) := hcond
    rw [mergeLoop.eq_def]
    dsimp only
    rw [if_neg hsp, if_neg hbo, if_neg hig]
    rw [if_neg hcond2]
    refine ih ?_
    have hro : c <:+:
        (if oldType = TokenType.EOF
          then ResyncOut.mk oldRest oldType comment result
          else resync e l newTok.type spaces oldRest comment result).result ∨
        c <:+:
        (if oldType = TokenType.EOF
          then ResyncOut.mk oldRest oldType comment result
          else resync e l newTok.type spaces oldRest comment result).comment ∨
        ((if oldType = TokenType.EOF
          then ResyncOut.mk oldRest oldType comment result
          else resync e l newTok.type spaces oldRest comment result).tokType ≠ TokenType.EOF ∧
          ∃ t ∈ (if oldType = TokenType.EOF
            then ResyncOut.mk oldRest oldType comment result
            else resync e l newTok.type spaces oldRest comment result).rest.takeWhile
              (fun tk => tk.type ≠ TokenType.EOF),
            (t.type = TokenType.LineComment ∨ t.type = TokenType.BlockCommentContent) ∧
              c = reconText e t) := by
      by_cases hE : oldType = TokenType.EOF
      · rw [if_pos hE]
        rcases hinv with h | h | ⟨hne, _⟩
        · exact Or.inl h
        · exact Or.inr (Or.inl h)
        · exact absurd hE hne
      · rw [if_neg hE]
        rcases hinv with h | h | ⟨_, t, hmem, hty, rfl⟩
        · obtain ⟨ext, he⟩ :=
            resync_result_pfx e l newTok.type spaces oldRest comment result
          exact Or.inl (he ▸ infixAppendRight h)
        · rcases resync_keeps e l newTok.type spaces oldRest comment result h with h2 | h2
          · exact Or.inr (Or.inl h2)
          · exact Or.inl h2
        · rcases resync_adds e l newTok.type spaces oldRest comment result t hmem hty with
            (h2 | h2) | ⟨hmem2, htok⟩
          · exact Or.inr (Or.inl h2)
          · exact Or.inl h2
          · exact Or.inr (Or.inr ⟨htok, t, hmem2, hty, rfl⟩)
    rcases hro with h | h | h3
    · exact Or.inl (emit_keeps hc (Or.inl h))
    · exact Or.inl (emit_keeps hc (Or.inr h))
    · exact Or.inr (Or.inr h3)

/-- C1 (amended): every comment of the original whose emitted text contains
no line break — every line comment and every single-line block comment —
appears verbatim in the merged output; this in fact holds without any
compatibility assumption.  (The claim as frozen is refuted for multi-line
block comments, whose interior lines are re-indented when flushed: see the
counterexample.) -/
theorem comment_conservation_single_line (existingCode prettyStr : Str)
    (oldTokens newTokens : List Token) (t : Token)
    (hmem : t ∈ oldTokens.takeWhile (fun tk => tk.type ≠ TokenType.EOF))
    (hty : t.type = TokenType.LineComment ∨ t.type = TokenType.BlockCommentContent)
    (hnl : '\n' ∉ reconText existingCode t) :
    reconText existingCode t <:+: reconcile existingCode oldTokens prettyStr newTokens := by
  unfold reconcile
  apply mergeLoop_conserves existingCode (splitLines existingCode) prettyStr hnl
  exact Or.inr (Or.inr ⟨by decide, t, hmem, hty, rfl⟩)

/-- C1 witness: the trailing line comment of the source is conserved in the
output of the merge, by the amended conservation theorem. -/
theorem comment_conservation_witness :
    reconText ("x // hi".toList) (Token.mk TokenType.LineComment (Pos.mk 2 1 2) (Pos.mk 6 1 6)) <:+:
      reconcile ("x // hi".toList) (modelLex ("x // hi".toList))
        ("x".toList) (modelLex ("x".toList)) :=
  comment_conservation_single_line ("x // hi".toList) ("x".toList)
    (modelLex ("x // hi".toList)) (modelLex ("x".toList))
    (Token.mk TokenType.LineComment (Pos.mk 2 1 2) (Pos.mk 6 1 6))
    (by decide) (by decide) (by decide)

/-- C1 counterexample: a multi-line block comment of a kind-compatible input
pair is not conserved verbatim: its second line is re-indented by the padding
of the following rendered token, so the comment substring of the original
does not occur in the output of prettyCode. -/
theorem comment_conservation_counterexample :
    kindCompatible (modelLex ("fn \x7b\n  x\n\x7d".toList))
        (modelLex ("fn \x7b\n  /* a\n  b */\n  x\n\x7d".toList)) = true ∧
    containsSub ("/* a\n  b */".toList) ("fn \x7b\n  /* a\n  b */\n  x\n\x7d".toList) = true ∧
    containsSub ("/* a\n  b */".toList)
        (prettyCode (fun _ _ => ("fn \x7b\n  x\n\x7d".toList)) modelLex
          ("fn \x7b\n  /* a\n  b */\n  x\n\x7d".toList) 80) = false := by
  decide

/-- C7: a structural-bypass token (parenthesis or bracket) in the new stream
makes the merge flush the spacing buffer verbatim, append the token's own
rendered text, and clear the spacing buffer, while the old stream cursor,
the pulled old-token kind and the comment buffer are left untouched — no
comment or indentation decision is pulled from the original. -/
theorem structural_bypass_noninterference (existingCode : Str) (lines : List Str)
    (prettyStr : Str) (newTok : Token) (rest oldRest : List Token) (oldType : TokenType)
    (result spaces comment : Str)
    (hig : ignoredTokenTypes.contains newTok.type = true) :
    mergeLoop existingCode lines prettyStr (newTok :: rest) oldRest oldType
        result spaces comment =
      mergeLoop existingCode lines prettyStr rest oldRest oldType
        (result ++ spaces ++ extractTokenText prettyStr newTok) [] comment := by
  have hsp : ¬newTok.type = TokenType.Space := by
    intro h; rw [h] at hig; exact absurd hig (by decide)
  have hbo : ¬newTok.type = TokenType.BraceOpen := by
    intro h; rw [h] at hig; exact absurd hig (by decide)
  rw [mergeLoop.eq_def]
  dsimp only
  rw [if_neg hsp, if_neg hbo, if_pos hig]

/-- C7 witness: a parenthesis token processed at a concrete state — the
pending space is flushed, the token text appended, and the old stream and
comment buffer pass through unchanged. -/
theorem structural_bypass_witness :
    mergeLoop ("y (".toList) (splitLines ("y (".toList)) ("(".toList)
        [Token.mk TokenType.ParenOpen (Pos.mk 0 1 0) (Pos.mk 0 1 0)]
        [Token.mk TokenType.EOF (Pos.mk 3 1 3) (Pos.mk 3 1 3)] TokenType.Space
        ("y".toList) (" ".toList) ("// c\n".toList) =
      mergeLoop ("y (".toList) (splitLines ("y (".toList)) ("(".toList) []
        [Token.mk TokenType.EOF (Pos.mk 3 1 3) (Pos.mk 3 1 3)] TokenType.Space
        ("y".toList ++ " ".toList ++
          extractTokenText ("(".toList)
            (Token.mk TokenType.ParenOpen (Pos.mk 0 1 0) (Pos.mk 0 1 0)))
        [] ("// c\n".toList) :=
  structural_bypass_noninterference ("y (".toList) (splitLines ("y (".toList)) ("(".toList)
    (Token.mk TokenType.ParenOpen (Pos.mk 0 1 0) (Pos.mk 0 1 0)) []
    [Token.mk TokenType.EOF (Pos.mk 3 1 3) (Pos.mk 3 1 3)] TokenType.Space
    ("y".toList) (" ".toList) ("// c\n".toList) (by decide)

/-- C6 (amended): on an open-brace in the new stream the merge looks one
token ahead; exactly when that token is a close-brace (the braces are
adjacent in the rendered token stream, with no intervening whitespace
token), both are consumed and the literal two-character empty-brace text is
emitted; otherwise the lookahead is reverted and the open-brace alone is
emitted.  In both cases the spacing buffer is carried over unflushed (unlike
a Structural Bypass token) and the old stream is untouched.  A rendered
open-brace / line-break-indent / close-brace fragment is NOT collapsed. -/
theorem empty_block_collapse_amended :
    (∀ (existingCode : Str) (lines : List Str) (prettyStr : Str) (bo next : Token)
      (rest2 oldRest : List Token) (oldType : TokenType) (result spaces comment : Str),
      bo.type = TokenType.BraceOpen → next.type = TokenType.BraceClose →
      mergeLoop existingCode lines prettyStr (bo :: next :: rest2) oldRest oldType
          result spaces comment =
        mergeLoop existingCode lines prettyStr rest2 oldRest oldType
          (result ++ ['\x7b', '\x7d']) spaces comment) ∧
    (∀ (existingCode : Str) (lines : List Str) (prettyStr : Str) (bo next : Token)
      (rest2 oldRest : List Token) (oldType : TokenType) (result spaces comment : Str),
      bo.type = TokenType.BraceOpen → ¬next.type = TokenType.BraceClose →
      mergeLoop existingCode lines prettyStr (bo :: next :: rest2) oldRest oldType
          result spaces comment =
        mergeLoop existingCode lines prettyStr (next :: rest2) oldRest oldType
          (result ++ ['\x7b']) spaces comment) := by
  constructor
  · intro e l p bo next rest2 oldRest oldType result spaces comment hbo hbc
    have hsp : ¬bo.type = TokenType.Space := by rw [hbo]; decide
    rw [mergeLoop.eq_def]
    dsimp only
    rw [if_neg hsp, if_pos hbo, if_pos hbc]
  · intro e l p bo next rest2 oldRest oldType result spaces comment hbo hbc
    have hsp : ¬bo.type = TokenType.Space := by rw [hbo]; decide
    rw [mergeLoop.eq_def]
    dsimp only
    rw [if_neg hsp, if_pos hbo, if_neg hbc]

/-- C6 witness: adjacent open/close braces in the new stream are collapsed
to the literal empty-brace text at a concrete state. -/
theorem empty_block_collapse_witness :
    mergeLoop ("f()\x7b\x7d".toList) (splitLines ("f()\x7b\x7d".toList))
        ("f()\x7b\x7d".toList)
        [Token.mk TokenType.BraceOpen (Pos.mk 3 1 3) (Pos.mk 3 1 3),
          Token.mk TokenType.BraceClose (Pos.mk 4 1 4) (Pos.mk 4 1 4)]
        [] TokenType.Space ("f()".toList) [] [] =
      mergeLoop ("f()\x7b\x7d".toList) (splitLines ("f()\x7b\x7d".toList))
        ("f()\x7b\x7d".toList) [] [] TokenType.Space
        ("f()".toList ++ ['\x7b', '\x7d']) [] [] :=
  empty_block_collapse_amended.1 ("f()\x7b\x7d".toList) (splitLines ("f()\x7b\x7d".toList))
    ("f()\x7b\x7d".toList)
    (Token.mk TokenType.BraceOpen (Pos.mk 3 1 3) (Pos.mk 3 1 3))
    (Token.mk TokenType.BraceClose (Pos.mk 4 1 4) (Pos.mk 4 1 4))
    [] [] TokenType.Space ("f()".toList) [] [] (by decide) (by decide)

/-- C6 counterexample: a rendered fragment of open-brace, line-break-plus-
indent whitespace, close-brace — the shape named by the claim — is not
collapsed: the output of prettyCode contains no adjacent empty-brace pair
(the lookahead token is the whitespace token, so the stream is reverted). -/
theorem empty_block_collapse_counterexample :
    (modelLex ("x \x7b\n    \x7d".toList)).map Token.type =
        [TokenType.Identifier, TokenType.Space, TokenType.BraceOpen, TokenType.Space,
          TokenType.BraceClose, TokenType.EOF] ∧
    containsSub ['\x7b', '\x7d']
        (prettyCode (fun _ _ => ("x \x7b\n    \x7d".toList)) modelLex
          ("x \x7b\n    \x7d".toList) 80) = false := by
  decide

/-- C8: when parsing fails, i.e. the rendered text carries the parser's
diagnostic marker, prettyCode returns exactly that diagnostic text and
performs no merge. -/
theorem parse_failure_passthrough (pretty : Str → Nat → Str) (lex : Str → List Token)
    (code : Str) (w : Nat)
    (h : parsingFailedMarker.isPrefixOf (pretty code w) = true) :
    prettyCode pretty lex code w = pretty code w := by
  unfold prettyCode
  rw [if_pos h]

/-- C8 witness: a concrete diagnostic message is passed straight through. -/
theorem parse_failure_passthrough_witness :
    prettyCode (fun _ _ => ("Parsing failed at token".toList)) modelLex ("x +".toList) 80 =
      ("Parsing failed at token".toList) :=
  parse_failure_passthrough (fun _ _ => ("Parsing failed at token".toList)) modelLex
    ("x +".toList) 80 (by decide)

/-- C10: whitespace still pending in the spacing buffer when the new stream
reaches its end-of-input token is discarded: with a comment-free old stream
remainder the merge returns exactly the result and comment buffers, for
every content of the spacing buffer. -/
theorem trailing_whitespace_discarded (existingCode : Str) (lines : List Str)
    (prettyStr : Str) (t : Token) (rest oldRest : List Token) (oldType : TokenType)
    (result spaces comment : Str)
    (ht : t.type = TokenType.EOF) (hnc : noComments oldRest = true) :
    mergeLoop existingCode lines prettyStr (t :: rest) oldRest oldType
        result spaces comment = result ++ comment := by
  have hsp : ¬t.type = TokenType.Space := by rw [ht]; decide
  have hbo : ¬t.type = TokenType.BraceOpen := by rw [ht]; decide
  have hig : ¬(ignoredTokenTypes.contains t.type = true) := by rw [ht]; decide
  rw [mergeLoop.eq_def]
  dsimp only
  rw [if_neg hsp, if_neg hbo, if_neg hig, ht]
  by_cases hE : oldType = TokenType.EOF
  · rw [if_pos hE]
    dsimp only
    rw [if_pos ⟨hE, rfl⟩]
  · rw [if_neg hE]
    have htok := resync_eof_tokType existingCode lines spaces oldRest comment result
    obtain ⟨hcm, hres, _⟩ := resync_pure existingCode lines TokenType.EOF spaces
      oldRest comment result hnc
    rw [if_pos ⟨htok, rfl⟩, hcm, hres]

/-- C10 witness: at a concrete end-of-input state a pending spacing buffer
(a space and a line break) is dropped from the returned text. -/
theorem trailing_whitespace_discarded_witness :
    mergeLoop ("x".toList) (splitLines ("x".toList)) ("x \n".toList)
        [Token.mk TokenType.EOF (Pos.mk 3 1 3) (Pos.mk 3 1 3)] []
        TokenType.Identifier ("x".toList) (" \n".toList) [] =
      ("x".toList) ++ [] :=
  trailing_whitespace_discarded ("x".toList) (splitLines ("x".toList)) ("x \n".toList)
    (Token.mk TokenType.EOF (Pos.mk 3 1 3) (Pos.mk 3 1 3)) [] []
    TokenType.Identifier ("x".toList) (" \n".toList) [] (by decide) (by decide)

theorem dropWhile_congr_mem {l : List Char} {pf qf : Char → Bool}
    (h : ∀ x ∈ l, pf x = qf x) : l.dropWhile pf = l.dropWhile qf := by
  induction l with
  | nil => rfl
  | cons a as ih =>
    rw [List.dropWhile_cons, List.dropWhile_cons, h a (by simp)]
    split
    · exact ih (fun x hx => h x (by simp [hx]))
    · rfl

theorem spaces_reconstruct {s : Str} (hs : spacesNL s = true) :
    trimRightSpaces s ++
      List.replicate (List.takeWhile (fun c => decide (c ≠ '\n')) s.reverse).length ' ' = s := by
  have hmem : ∀ x ∈ s.reverse, x = ' ' ∨ x = '\n' := by
    intro x hx
    have := List.all_eq_true.mp hs x (List.mem_reverse.mp hx)
    simpa using this
  have hdw : s.reverse.dropWhile (fun c => c = ' ') =
      s.reverse.dropWhile (fun c => decide (c ≠ '\n')) := by
    apply dropWhile_congr_mem
    intro x hx
    rcases hmem x hx with h | h <;> subst h <;> decide
  have htw : List.takeWhile (fun c => decide (c ≠ '\n')) s.reverse =
      List.replicate (List.takeWhile (fun c => decide (c ≠ '\n')) s.reverse).length ' ' := by
    apply List.eq_replicate_of_mem
    intro b hb
    have hb1 := List.mem_takeWhile_imp hb
    have hb2 : b ∈ s.reverse := (List.takeWhile_prefix _).subset hb
    rcases hmem b hb2 with h | h
    · exact h
    · subst h; simp at hb1
  conv_rhs => rw [← List.reverse_reverse s,
    ← List.takeWhile_append_dropWhile (p := fun c => decide (c ≠ '\n')) (l := s.reverse)]
  rw [List.reverse_append, trimRightSpaces, hdw]
  congr 1
  conv_rhs => rw [htw]
  rw [List.reverse_replicate]

theorem wellSpaced_tail {t : Token} {rest : List Token} (h : wellSpaced (t :: rest) = true) :
    wellSpaced rest = true := by
  cases rest with
  | nil => rfl
  | cons u r2 =>
    rw [wellSpaced, Bool.and_eq_true] at h
    exact h.2

theorem ro_ite_pure (e : Str) (l : List Str) (nt : TokenType) (spaces : Str)
    (oldRest : List Token) (result : Str) (oldType : TokenType)
    (hnc : noComments oldRest = true) :
    (if oldType = TokenType.EOF then ResyncOut.mk oldRest oldType [] result
        else resync e l nt spaces oldRest [] result).comment = [] ∧
      (if oldType = TokenType.EOF then ResyncOut.mk oldRest oldType [] result
        else resync e l nt spaces oldRest [] result).result = result ∧
      noComments (if oldType = TokenType.EOF then ResyncOut.mk oldRest oldType [] result
        else resync e l nt spaces oldRest [] result).rest = true := by
  by_cases hE : oldType = TokenType.EOF
  · rw [if_pos hE]; exact ⟨rfl, rfl, hnc⟩
  · rw [if_neg hE]; exact resync_pure e l nt spaces oldRest [] result hnc

theorem mergeLoop_passthrough (e : Str) (l : List Str) (p : Str) :
    ∀ (newRest oldRest : List Token) (oldType : TokenType) (result spaces comment : Str),
      comment = [] →
      noComments oldRest = true →
      newRest.all (goodNewToken p) = true →
      wellSpaced newRest = true →
      spacesNL spaces = true →
      (∀ u rest2, newRest = u :: rest2 →
        u.type = TokenType.BraceOpen ∨ u.type = TokenType.EOF → spaces = []) →
      (newRest = [] → spaces = []) →
      mergeLoop e l p newRest oldRest oldType result spaces comment =
        result ++ spaces ++ tailText p newRest := by
  intro newRest oldRest oldType result spaces comment
  induction newRest, oldRest, oldType, result, spaces, comment using mergeLoop.induct e l p with
  | case1 oldRest oldType result spaces comment =>
    intro hcm hnc _ _ _ _ hnil
    subst hcm
    rw [hnil rfl, mergeLoop]
    obtain ⟨h1, h2, _⟩ := ro_ite_pure e l TokenType.EOF [] oldRest result oldType hnc
    rw [h1, h2, tailText]
    simp
  | case2 newTok rest oldRest oldType result spaces comment hsp ih =>
    intro hcm hnc hall hws hsnl hhead _
    subst hcm
    have hgood : goodNewToken p newTok = true := by
      have := List.all_eq_true.mp hall newTok (by simp)
      simpa using this
    have hext : spacesNL (extractTokenText p newTok) = true := by
      unfold goodNewToken at hgood
      rw [hsp] at hgood
      exact hgood
    rw [mergeLoop.eq_def]
    dsimp only
    rw [if_pos hsp]
    rw [ih rfl hnc (by simp_all [List.all_cons]) (wellSpaced_tail hws)
      (by rw [spacesNL, List.all_append] at *; simp_all [spacesNL])
      ?hd1 ?hd2]
    case hd1 =>
      intro u rest2 hre hu
      subst hre
      rw [wellSpaced] at hws
      rw [Bool.and_eq_true] at hws
      exfalso
      rcases hu with hu | hu <;> simp [hsp, hu] at hws
    case hd2 =>
      intro hre
      subst hre
      rw [wellSpaced] at hws
      simp [hsp] at hws
    rw [tailText, if_neg (by rw [hsp]; decide)]
    simp
  | case3 newTok oldRest oldType result spaces comment hsp hbo next rest2 hbc ih =>
    intro hcm hnc hall hws hsnl hhead _
    subst hcm
    have hspemp : spaces = [] := hhead newTok (next :: rest2) rfl (Or.inl hbo)
    subst hspemp
    have hgbo : extractTokenText p newTok = ['\x7b'] := by
      have := List.all_eq_true.mp hall newTok (by simp)
      unfold goodNewToken at this
      rw [hbo] at this
      simpa using this
    have hgbc : extractTokenText p next = ['\x7d'] := by
      have := List.all_eq_true.mp hall next (by simp)
      unfold goodNewToken at this
      rw [hbc] at this
      simpa using this
    rw [mergeLoop.eq_def]
    dsimp only
    rw [if_neg hsp, if_pos hbo, if_pos hbc]
    rw [ih rfl hnc (by simp_all [List.all_cons]) (wellSpaced_tail (wellSpaced_tail hws))
      rfl (fun u r2 hre hu => rfl) (fun hre => rfl)]
    rw [tailText, if_neg (by rw [hbo]; decide), tailText, if_neg (by rw [hbc]; decide)]
    rw [hgbo, hgbc]
    simp
  | case4 newTok oldRest oldType result spaces comment hsp hbo next rest2 hbc ih =>
    intro hcm hnc hall hws hsnl hhead _
    subst hcm
    have hspemp : spaces = [] := hhead newTok (next :: rest2) rfl (Or.inl hbo)
    subst hspemp
    have hgbo : extractTokenText p newTok = ['\x7b'] := by
      have := List.all_eq_true.mp hall newTok (by simp)
      unfold goodNewToken at this
      rw [hbo] at this
      simpa using this
    rw [mergeLoop.eq_def]
    dsimp only
    rw [if_neg hsp, if_pos hbo, if_neg hbc]
    rw [ih rfl hnc (by simp_all [List.all_cons]) (wellSpaced_tail hws)
      rfl (fun u r2 hre hu => rfl) (fun hre => by simp at hre)]
    conv_rhs => rw [tailText]
    rw [if_neg (show ¬newTok.type = TokenType.EOF by rw [hbo]; decide)]
    rw [hgbo]
    simp
  | case5 newTok oldRest oldType result spaces comment hsp hbo =>
    intro hcm hnc hall _ _ hhead _
    subst hcm
    have hspemp : spaces = [] := hhead newTok [] rfl (Or.inl hbo)
    subst hspemp
    have hgbo : extractTokenText p newTok = ['\x7b'] := by
      have := List.all_eq_true.mp hall newTok (by simp)
      unfold goodNewToken at this
      rw [hbo] at this
      simpa using this
    rw [mergeLoop.eq_def]
    dsimp only
    rw [if_neg hsp, if_pos hbo]
    obtain ⟨h1, h2, _⟩ :=
      ro_ite_pure e l TokenType.EOF [] oldRest (result ++ ['\x7b']) oldType hnc
    rw [h1, h2]
    rw [tailText, if_neg (by rw [hbo]; decide), tailText]
    rw [hgbo]
    simp
  | case6 newTok rest oldRest oldType result spaces comment hsp hbo hig ih =>
    intro hcm hnc hall hws hsnl _ _
    subst hcm
    have hne : ¬newTok.type = TokenType.EOF := by
      intro h; rw [h] at hig; exact absurd hig (by decide)
    rw [mergeLoop.eq_def]
    dsimp only
    rw [if_neg hsp, if_neg hbo, if_pos hig]
    rw [ih rfl hnc (by simp_all [List.all_cons]) (wellSpaced_tail hws)
      rfl (fun u r2 hre hu => rfl) (fun hre => rfl)]
    rw [tailText, if_neg hne]
    simp
  | case7 newTok rest oldRest oldType result spaces comment hsp hbo hig ro hcond =>
    intro hcm hnc hall hws hsnl hhead _
    subst hcm
    have hcond2 : (if oldType = TokenType.EOF
        then ResyncOut.mk oldRest oldType [] result
        else resync e l newTok.type spaces oldRest [] result).tokType = TokenType.EOF ∧
        newTok.type = TokenType.EOF := hcond
    have hspemp : spaces = [] := hhead newTok rest rfl (Or.inr hcond2.2)
    subst hspemp
    rw [mergeLoop.eq_def]
    dsimp only
    rw [if_neg hsp, if_neg hbo, if_neg hig, if_pos hcond2]
    obtain ⟨h1, h2, _⟩ := ro_ite_pure e l newTok.type [] oldRest result oldType hnc
    rw [h1, h2, tailText, if_pos hcond2.2]
    simp
  | case8 newTok rest oldRest oldType result spaces comment hsp hbo hig ro hcond
      existingIndent r1 r2 ih =>
    intro hcm hnc hall hws hsnl _ _
    subst hcm
    have hcond2 : ¬((if oldType = TokenType.EOF
        then ResyncOut.mk oldRest oldType [] result
        else resync e l newTok.type spaces oldRest [] result).tokType = TokenType.EOF ∧
        newTok.type = TokenType.EOF) := hcond
    obtain ⟨h1, h2, h3⟩ := ro_ite_pure e l newTok.type spaces oldRest result oldType hnc
    have hne : ¬newTok.type = TokenType.EOF := by
      intro heof
      by_cases hE : oldType = TokenType.EOF
      · exact hcond2 ⟨by rw [if_pos hE]; exact hE, heof⟩
      · refine hcond2 ⟨?_, heof⟩
        rw [if_neg hE, heof]
        exact resync_eof_tokType e l spaces oldRest [] result
    have ihe := ih rfl h3 (by simp_all [List.all_cons]) (wellSpaced_tail hws) rfl
      (fun u r2x hre hu => rfl) (fun hre => rfl)
    unfold r2 r1 existingIndent ro at ihe
    rw [mergeLoop.eq_def]
    dsimp only
    rw [if_neg hsp, if_neg hbo, if_neg hig, if_neg hcond2]
    rw [ihe]
    rw [h1]
    rw [if_neg (show ¬(List.length ([] : Str) > 0) by decide)]
    rw [h2]
    rw [List.append_assoc result (trimRightSpaces spaces), spaces_reconstruct hsnl]
    conv_rhs => rw [tailText]
    rw [if_neg hne]
    simp

/-- C2 (amended): with no comment tokens anywhere in the original and a
successful parse, prettyCode returns the rendered text exactly, provided the
rendered text is whitespace-clean: its whitespace tokens hold only spaces
and line breaks, its brace tokens are bare delimiters, no whitespace token
immediately precedes an open-brace or the end of input, and its token texts
tile the rendered text.  (Without the open-brace proviso the whitespace
before an open brace is displaced to after it, and trailing whitespace is
dropped: see the counterexample.) -/
theorem width_passthrough_amended (pretty : Str → Nat → Str) (lex : Str → List Token)
    (original : Str) (w : Nat)
    (hp : parsingFailedMarker.isPrefixOf (pretty original w) = false)
    (hnc : noComments (lex original) = true)
    (hall : (lex (pretty original w)).all (goodNewToken (pretty original w)) = true)
    (hws : wellSpaced (lex (pretty original w)) = true)
    (htile : tailText (pretty original w) (lex (pretty original w)) = pretty original w) :
    prettyCode pretty lex original w = pretty original w := by
  unfold prettyCode
  dsimp only
  rw [if_neg (by simp [hp])]
  unfold reconcile
  rw [mergeLoop_passthrough original (splitLines original) (pretty original w)
    (lex (pretty original w)) (lex original) TokenType.Space [] [] [] rfl hnc hall hws rfl
    (fun u r2 hre hu => rfl) (fun hre => rfl), htile]
  simp

/-- C2 witness: a comment-free original whose rendering satisfies the side
conditions is passed through exactly. -/
theorem width_passthrough_witness :
    prettyCode (fun _ _ => ("x = 1".toList)) modelLex ("x=1".toList) 80 = ("x = 1".toList) :=
  width_passthrough_amended (fun _ _ => ("x = 1".toList)) modelLex ("x=1".toList) 80
    (by decide) (by decide) (by decide) (by decide) (by decide)

/-- C2 counterexample: a comment-free original with a successful parse whose
rendering contains a space before an open brace: the merge moves that space
to after the brace, so the output differs from the rendered text. -/
theorem width_passthrough_counterexample :
    noComments (modelLex ("fun f() \x7b\n\x7d".toList)) = true ∧
    parsingFailedMarker.isPrefixOf ("fun f() \x7b\n\x7d".toList) = false ∧
    prettyCode (fun _ _ => ("fun f() \x7b\n\x7d".toList)) modelLex
        ("fun f() \x7b\n\x7d".toList) 80 ≠ ("fun f() \x7b\n\x7d".toList) := by
  decide

/-- C3 (amended): merging a canonical comment-free text with itself
reproduces it unchanged, provided the text is whitespace-clean in the sense
of the passthrough property: whitespace is spaces and line breaks only, no
whitespace immediately precedes an open-brace or the end of input, brace
tokens are bare delimiters, and the token texts tile the text.  (Without the
open-brace proviso self-merging moves the space before an open brace: see
the counterexample.) -/
theorem idempotence_amended (pretty : Str → Nat → Str) (lex : Str → List Token)
    (r : Str) (w : Nat)
    (hcanon : pretty r w = r)
    (hp : parsingFailedMarker.isPrefixOf r = false)
    (hnc : noComments (lex r) = true)
    (hall : (lex r).all (goodNewToken r) = true)
    (hws : wellSpaced (lex r) = true)
    (htile : tailText r (lex r) = r) :
    prettyCode pretty lex r w = r := by
  unfold prettyCode
  dsimp only
  rw [hcanon]
  rw [if_neg (by simp [hp])]
  unfold reconcile
  rw [mergeLoop_passthrough r (splitLines r) r (lex r) (lex r) TokenType.Space [] [] [] rfl
    hnc hall hws rfl (fun u r2 hre hu => rfl) (fun hre => rfl), htile]
  simp

/-- C3 witness: a canonical comment-free text is reproduced unchanged by the
self-merge. -/
theorem idempotence_witness :
    prettyCode (fun _ _ => ("a = 2".toList)) modelLex ("a = 2".toList) 80 = ("a = 2".toList) :=
  idempotence_amended (fun _ _ => ("a = 2".toList)) modelLex ("a = 2".toList) 80
    rfl (by decide) (by decide) (by decide) (by decide) (by decide)

/-- C3 counterexample: a text in canonical layout (it is its own rendering)
containing a space before an open brace is not reproduced by the self-merge:
the space migrates across the brace. -/
theorem idempotence_counterexample :
    (fun _ _ => ("x \x7b\n\x7d".toList) : Str → Nat → Str) ("x \x7b\n\x7d".toList) 80 =
        ("x \x7b\n\x7d".toList) ∧
    parsingFailedMarker.isPrefixOf ("x \x7b\n\x7d".toList) = false ∧
    prettyCode (fun _ _ => ("x \x7b\n\x7d".toList)) modelLex ("x \x7b\n\x7d".toList) 80 ≠
        ("x \x7b\n\x7d".toList) := by
  decide

theorem trimSpaceTab_eq_nil_iff {s : Str} :
    trimSpaceTab s = [] ↔ ∀ c ∈ s, isSpaceTab c = true := by
  unfold trimSpaceTab
  constructor
  · intro h
    have h0 : (s.dropWhile isSpaceTab).reverse.dropWhile isSpaceTab = [] := by
      have := congrArg List.reverse h
      simpa using this
    have h1 := List.dropWhile_eq_nil_iff.mp h0
    intro c hcs
    rw [← List.takeWhile_append_dropWhile (p := isSpaceTab) (l := s)] at hcs
    rcases List.mem_append.mp hcs with h3 | h3
    · exact List.mem_takeWhile_imp h3
    · exact h1 c (List.mem_reverse.mpr h3)
  · intro h
    rw [List.dropWhile_eq_nil_iff.mpr (fun x hx => h x hx)]
    rfl

/-- C4: a line comment is classified trailing exactly when some character
other than a space or tab stands on its source line before its start
column; and at the spec's example a trailing comment is appended with a
single space: merging original "x = 1 // note" with rendered "x = 1"
returns exactly "x = 1 // note". -/
theorem trailing_classification_placement :
    (∀ (lines : List Str) (t : Token),
      isTrailingLineComment lines t = true ↔
        ∃ c ∈ (lines.getD (t.startPos.line - 1) []).take t.startPos.column,
          ¬(c = ' ' ∨ c = '\t')) ∧
    reconcile ("x = 1 // note".toList) (modelLex ("x = 1 // note".toList))
        ("x = 1".toList) (modelLex ("x = 1".toList)) = ("x = 1 // note".toList) := by
  constructor
  · intro lines t
    unfold isTrailingLineComment lineCommentPrefixText
    constructor
    · intro h
      by_contra hno
      push_neg at hno
      have hall : ∀ c ∈ (lines.getD (t.startPos.line - 1) []).take t.startPos.column,
          isSpaceTab c = true := by
        intro c hc
        have := hno c hc
        unfold isSpaceTab
        rcases this with h1 | h1 <;> simp [h1]
      rw [trimSpaceTab_eq_nil_iff.mpr hall] at h
      simp at h
    · rintro ⟨c, hc, hcn⟩
      by_contra h2
      have hemp : trimSpaceTab ((lines.getD (t.startPos.line - 1) []).take t.startPos.column)
          = [] := by
        rcases hn : trimSpaceTab ((lines.getD (t.startPos.line - 1) []).take t.startPos.column)
          with _ | ⟨a, as⟩
        · rfl
        · rw [hn] at h2; simp at h2
      have := trimSpaceTab_eq_nil_iff.mp hemp c hc
      unfold isSpaceTab at this
      simp at this
      rcases this with h1 | h1 <;> exact hcn (by simp [h1])
  · decide

/-- C5: for a leading line comment the classifier prepends one blank line
exactly when the previous original line is blank (the comment is not on the
first line) and the spacing buffer does not already hold a double line
break, and appends one blank line exactly when the next original line is
blank; and the spec's example survives: original "// header", blank line,
"a = 1" merged with rendered "a = 1" reproduces the original, blank line
included. -/
theorem leading_blank_preservation :
    (∀ (e : Str) (l : List Str) (sp : Str) (t : Token) (cm r : Str),
      t.type = TokenType.LineComment →
      isTrailingLineComment l t = false →
      processComment e l sp t cm r =
        (cm ++
          (if t.startPos.line > 1 ∧ trimSpaceTab (l.getD (t.startPos.line - 2) []) = [] ∧
              endsWithDoubleNewline sp = false
            then ['\n'] else []) ++
          extractTokenText e t ++
          (if t.startPos.line < l.length ∧ trimSpaceTab (l.getD t.startPos.line []) = []
            then ['\n'] else []) ++ ['\n'], r)) ∧
    reconcile ("// header\n\na = 1".toList) (modelLex ("// header\n\na = 1".toList))
        ("a = 1".toList) (modelLex ("a = 1".toList)) = ("// header\n\na = 1".toList) := by
  constructor
  · intro e l sp t cm r ht htr
    rw [processComment_leading ht htr]
    have e1 : ((decide (t.startPos.line > 1) &&
        (trimSpaceTab (l.getD (t.startPos.line - 2) [])).isEmpty &&
        !endsWithDoubleNewline sp) = true) ↔
        (t.startPos.line > 1 ∧ trimSpaceTab (l.getD (t.startPos.line - 2) []) = [] ∧
          endsWithDoubleNewline sp = false) := by
      simp [Bool.and_eq_true, List.isEmpty_iff, and_assoc]
    have e2 : ((decide (t.startPos.line < l.length) &&
        (trimSpaceTab (l.getD t.startPos.line [])).isEmpty) = true) ↔
        (t.startPos.line < l.length ∧ trimSpaceTab (l.getD t.startPos.line []) = []) := by
      simp [Bool.and_eq_true, List.isEmpty_iff]
    rw [if_congr e1 rfl rfl, if_congr e2 rfl rfl]
  · decide

/-- C5 witness: the classifier at a concrete leading comment on the first
line with a blank line after it: no blank line is prepended (the comment is
on line one), one blank line is appended, then the leading line break. -/
theorem leading_blank_witness :
    processComment ("// h\n\nz".toList) (splitLines ("// h\n\nz".toList)) []
        (Token.mk TokenType.LineComment (Pos.mk 0 1 0) (Pos.mk 3 1 3)) [] [] =
      ("// h\n\n".toList, []) := by
  have h := leading_blank_preservation.1 ("// h\n\nz".toList)
    (splitLines ("// h\n\nz".toList)) []
    (Token.mk TokenType.LineComment (Pos.mk 0 1 0) (Pos.mk 3 1 3)) [] []
    (by decide) (by decide)
  rw [h]
  decide

theorem resyncFuel_terminates (e : Str) (l : List Str) (nt : TokenType) (sp : Str) :
    ∀ (old : List Token) (fuel : Nat) (cm r : Str), old.length < fuel →
      resyncFuel e l nt sp fuel old cm r = some (resync e l nt sp old cm r) := by
  intro old
  induction old with
  | nil =>
    intro fuel cm r hf
    cases fuel with
    | zero => exact absurd hf (by omega)
    | succ f => rfl
  | cons t rest ih =>
    intro fuel cm r hf
    cases fuel with
    | zero => exact absurd hf (by omega)
    | succ f =>
      rw [resyncFuel, resync]
      split
      · rfl
      · exact ih f _ _ (by simp at hf; omega)

theorem resyncFuel_some (e : Str) (l : List Str) (nt : TokenType) (sp : Str)
    (oldRest : List Token) (oldType : TokenType) (cm r : Str) :
    (if oldType = TokenType.EOF then some (ResyncOut.mk oldRest oldType cm r)
      else resyncFuel e l nt sp (oldRest.length + 1) oldRest cm r) =
    some (if oldType = TokenType.EOF then ResyncOut.mk oldRest oldType cm r
      else resync e l nt sp oldRest cm r) := by
  by_cases hE : oldType = TokenType.EOF
  · rw [if_pos hE, if_pos hE]
  · rw [if_neg hE, if_neg hE,
      resyncFuel_terminates e l nt sp oldRest (oldRest.length + 1) cm r (by omega)]

theorem mergeLoopFuel_eq (e : Str) (l : List Str) (p : Str) :
    ∀ (newRest oldRest : List Token) (oldType : TokenType) (result spaces comment : Str)
      (fuel : Nat), newRest.length < fuel →
      mergeLoopFuel e l p fuel newRest oldRest oldType result spaces comment =
        some (mergeLoop e l p newRest oldRest oldType result spaces comment) := by
  intro newRest oldRest oldType result spaces comment
  induction newRest, oldRest, oldType, result, spaces, comment using mergeLoop.induct e l p with
  | case1 oldRest oldType result spaces comment =>
    intro fuel hf
    cases fuel with
    | zero => exact absurd hf (by omega)
    | succ f =>
      rw [mergeLoopFuel.eq_def, mergeLoop.eq_def]
      dsimp only
      rw [resyncFuel_some e l TokenType.EOF spaces oldRest oldType comment result]
  | case2 newTok rest oldRest oldType result spaces comment hsp ih =>
    intro fuel hf
    cases fuel with
    | zero => exact absurd hf (by omega)
    | succ f =>
      rw [mergeLoopFuel.eq_def, mergeLoop.eq_def]
      dsimp only
      rw [if_pos hsp, if_pos hsp]
      exact ih f (by simp at hf; omega)
  | case3 newTok oldRest oldType result spaces comment hsp hbo next rest2 hbc ih =>
    intro fuel hf
    cases fuel with
    | zero => exact absurd hf (by omega)
    | succ f =>
      rw [mergeLoopFuel.eq_def, mergeLoop.eq_def]
      dsimp only
      rw [if_neg hsp, if_neg hsp, if_pos hbo, if_pos hbo, if_pos hbc, if_pos hbc]
      exact ih f (by simp at hf; omega)
  | case4 newTok oldRest oldType result spaces comment hsp hbo next rest2 hbc ih =>
    intro fuel hf
    cases fuel with
    | zero => exact absurd hf (by omega)
    | succ f =>
      rw [mergeLoopFuel.eq_def, mergeLoop.eq_def]
      dsimp only
      rw [if_neg hsp, if_neg hsp, if_pos hbo, if_pos hbo, if_neg hbc, if_neg hbc]
      exact ih f (by simp only [List.length_cons] at hf ⊢; omega)
  | case5 newTok oldRest oldType result spaces comment hsp hbo =>
    intro fuel hf
    cases fuel with
    | zero => exact absurd hf (by omega)
    | succ f =>
      rw [mergeLoopFuel.eq_def, mergeLoop.eq_def]
      dsimp only
      rw [if_neg hsp, if_neg hsp, if_pos hbo, if_pos hbo]
      rw [resyncFuel_some e l TokenType.EOF spaces oldRest oldType comment (result ++ ['\x7b'])]
  | case6 newTok rest oldRest oldType result spaces comment hsp hbo hig ih =>
    intro fuel hf
    cases fuel with
    | zero => exact absurd hf (by omega)
    | succ f =>
      rw [mergeLoopFuel.eq_def, mergeLoop.eq_def]
      dsimp only
      rw [if_neg hsp, if_neg hsp, if_neg hbo, if_neg hbo, if_pos hig, if_pos hig]
      exact ih f (by simp at hf; omega)
  | case7 newTok rest oldRest oldType result spaces comment hsp hbo hig ro hcond =>
    intro fuel hf
    have hcond2 : (if oldType = TokenType.EOF
        then ResyncOut.mk oldRest oldType comment result
        else resync e l newTok.type spaces oldRest comment result).tokType = TokenType.EOF ∧
        newTok.type = TokenType.EOF := hcond
    cases fuel with
    | zero => exact absurd hf (by omega)
    | succ f =>
      rw [mergeLoopFuel.eq_def, mergeLoop.eq_def]
      dsimp only
      rw [if_neg hsp, if_neg hsp, if_neg hbo, if_neg hbo, if_neg hig, if_neg hig]
      rw [resyncFuel_some e l newTok.type spaces oldRest oldType comment result]
      dsimp only
      rw [if_pos hcond2, if_pos hcond2]
  | case8 newTok rest oldRest oldType result spaces comment hsp hbo hig ro hcond
      existingIndent r1 r2 ih =>
    intro fuel hf
    have hcond2 : ¬((if oldType = TokenType.EOF
        then ResyncOut.mk oldRest oldType comment result
        else resync e l newTok.type spaces oldRest comment result).tokType = TokenType.EOF ∧
        newTok.type = TokenType.EOF) := hcond
    cases fuel with
    | zero => exact absurd hf (by omega)
    | succ f =>
      rw [mergeLoopFuel.eq_def, mergeLoop.eq_def]
      dsimp only
      rw [if_neg hsp, if_neg hsp, if_neg hbo, if_neg hbo, if_neg hig, if_neg hig]
      rw [resyncFuel_some e l newTok.type spaces oldRest oldType comment result]
      dsimp only
      rw [if_neg hcond2, if_neg hcond2]
      exact ih f (by simp at hf; omega)

/-- C9: the merge loop terminates on every pair of finite token streams: the
fuel-bounded mirror of the loop, given one unit of fuel per new-stream token
plus one, completes with the reconciliation result — every outer iteration
either advances the new cursor or ends the loop, and every resynchronization
sub-loop stops at a kind match or old-stream exhaustion within the
old-stream length. -/
theorem merge_loop_terminates (existingCode : Str) (oldTokens : List Token)
    (prettyStr : Str) (newTokens : List Token) :
    mergeLoopFuel existingCode (splitLines existingCode) prettyStr (newTokens.length + 1)
        newTokens oldTokens TokenType.Space [] [] [] =
      some (reconcile existingCode oldTokens prettyStr newTokens) :=
  mergeLoopFuel_eq existingCode (splitLines existingCode) prettyStr newTokens oldTokens
    TokenType.Space [] [] [] (newTokens.length + 1) (by omega)
